import Mathlib

/-
Verification of the squish-test-balancer repository against its specification.

The development shallowly embeds the two source files that carry the system's
state and algorithms:

  * historical_times.py : the persistent duration store (`HistoricalTimes`);
  * main.py             : the test executor (`run_squish_test`), the sorter
    (`sort_test_cases_by_execution_time`), the distributor
    (`distribute_tests`, embedded as a small-step interleaving machine over
    per-server workers), the `Config` singleton, and the data flow of `main`.

Python floats are modelled as exact rationals; the standard deviation, which
takes a real square root, lands in the reals.  Python dicts that the code
iterates over or serializes are modelled as insertion-ordered association
lists, matching dict semantics.
-/

/-- A squishserver endpoint, from `SquishServer` in main.py. -/
structure SquishServer where
  host : String
  port : Int
deriving DecidableEq

/-- `SquishServer.__str__`. -/
def SquishServer.str (s : SquishServer) : String :=
  s.host ++ ":" ++ toString s.port

/-- A discovered test case, from `TestCase` in main.py: `name` is the directory
name and `suite` the parent directory. -/
structure TestCase where
  name : String
  suite : String
deriving DecidableEq

/-- `TestCase.__str__`. -/
def TestCase.str (tc : TestCase) : String :=
  "TestCase(name=" ++ tc.name ++ ", suite=" ++ tc.suite ++ ")"

/-- The duration store's mapping `execution_history : Dict[str, List[float]]`,
as an insertion-ordered association list (Python dicts preserve insertion
order, which `save` serializes). -/
abbrev HistStore : Type := List (String × List ℚ)

namespace HistoricalTimes

/-- `HistoricalTimes.update_historical_time`: append to the existing sequence
for the key, or create a fresh one-element sequence (Python appends a new key
at the end of the dict). -/
def update_historical_time : HistStore → String → ℚ → HistStore
  | [], n, t => [(n, [t])]
  | (k, ts) :: rest, n, t =>
      if k = n then (k, ts ++ [t]) :: rest
      else (k, ts) :: update_historical_time rest n t

/-- `HistoricalTimes.get_execution_times`: `self.execution_history.get(name, [])`. -/
def get_execution_times : HistStore → String → List ℚ
  | [], _ => []
  | (k, ts) :: rest, n => if k = n then ts else get_execution_times rest n

end HistoricalTimes

/-- `statistics.mean` over exact rationals. -/
def statistics_mean (l : List ℚ) : ℚ :=
  l.sum / (l.length : ℚ)

/-- Ascending insertion used to model the sort inside `statistics.median`. -/
def insertAsc (x : ℚ) : List ℚ → List ℚ
  | [] => [x]
  | y :: ys => if x ≤ y then x :: y :: ys else y :: insertAsc x ys

/-- The ascending sort inside `statistics.median`. -/
def sortAsc : List ℚ → List ℚ
  | [] => []
  | x :: xs => insertAsc x (sortAsc xs)

/-- `statistics.median`: sort; odd length takes the middle element, even
length averages the two middle elements. -/
def statistics_median (l : List ℚ) : ℚ :=
  let s := sortAsc l
  let n := l.length
  if n % 2 = 1 then s.getD (n / 2) 0
  else (s.getD (n / 2 - 1) 0 + s.getD (n / 2) 0) / 2

/-- The sample variance under the square root of `statistics.stdev`:
`Σ (x - mean)² / (n - 1)`. -/
def statistics_variance (l : List ℚ) : ℚ :=
  let m := statistics_mean l
  (l.map (fun x => (x - m) ^ 2)).sum / ((l.length : ℚ) - 1)

/-- `statistics.stdev`: the real square root of the sample variance. -/
noncomputable def statistics_stdev (l : List ℚ) : ℝ :=
  Real.sqrt ((statistics_variance l : ℚ) : ℝ)

namespace HistoricalTimes

/-- `HistoricalTimes.get_average_execution_time`:
`statistics.mean(times) if times else 0.0`. -/
def get_average_execution_time (h : HistStore) (n : String) : ℚ :=
  let times := get_execution_times h n
  if times = [] then 0 else statistics_mean times

/-- `HistoricalTimes.get_median_execution_time`:
`statistics.median(times) if times else 0.0`. -/
def get_median_execution_time (h : HistStore) (n : String) : ℚ :=
  let times := get_execution_times h n
  if times = [] then 0 else statistics_median times

/-- `HistoricalTimes.get_standard_deviation`:
`statistics.stdev(times) if len(times) > 1 else 0.0`. -/
noncomputable def get_standard_deviation (h : HistStore) (n : String) : ℝ :=
  let times := get_execution_times h n
  if 1 < times.length then statistics_stdev times else 0

/-- `HistoricalTimes.get_all_test_cases`: the keys of the mapping. -/
def get_all_test_cases (h : HistStore) : List String :=
  h.map Prod.fst

end HistoricalTimes

/-- The JSON values that can appear in the persisted duration file: the shape
of `json.dump(self.execution_history, file)` in historical_times.py. -/
inductive Json where
  | num (q : ℚ)
  | jstr (s : String)
  | arr (xs : List Json)
  | obj (fields : List (String × Json))

/-- `json.dump` of the mapping `Dict[str, List[float]]`. -/
def dumpHistory (h : HistStore) : Json :=
  Json.obj (h.map (fun p => (p.1, Json.arr (p.2.map Json.num))))

/-- Read back a serialized list of numbers; any other shape is a parse error. -/
def parseNums : List Json → Option (List ℚ)
  | [] => some []
  | Json.num q :: rest => (parseNums rest).map (fun ts => q :: ts)
  | _ => none

/-- Read back one serialized duration list. -/
def parseFloatList : Json → Option (List ℚ)
  | Json.arr xs => parseNums xs
  | _ => none

/-- Read back the serialized fields of the mapping. -/
def parseFields : List (String × Json) → Option HistStore
  | [] => some []
  | (k, v) :: rest =>
      match parseFloatList v with
      | none => none
      | some ts => (parseFields rest).map (fun tail => (k, ts) :: tail)

/-- `json.load` of the duration file, restricted to the shape the store
writes; any other shape is a parse error. -/
def parseHistory : Json → Option HistStore
  | Json.obj fs => parseFields fs
  | _ => none

namespace HistoricalTimes

/-- `HistoricalTimes.save_execution_history`: the JSON written to the file. -/
def save_execution_history (h : HistStore) : Json :=
  dumpHistory h

/-- `HistoricalTimes.load_execution_history`, as run by `__init__` on a fresh
store: an absent file leaves the store empty, a present file is parsed
(`none` models a propagated parse error). -/
def load_execution_history (file : Option Json) : Option HistStore :=
  match file with
  | none => some []
  | some j => parseHistory j

end HistoricalTimes

/-- Descending stable insertion: the incoming element passes exactly the
elements with strictly larger key, so it stays before every equal-key element
that follows it.  Together with `sortDesc` this is extensionally the unique
stable sort for `sorted(..., key=..., reverse=True)` (Python's Timsort is
stable, and a stable sort's output is determined by the ordering alone). -/
def insertDesc (key : TestCase → ℚ) (x : TestCase) : List TestCase → List TestCase
  | [] => [x]
  | y :: ys => if key x < key y then y :: insertDesc key x ys else x :: y :: ys

/-- Stable descending sort by key: the model of
`sorted(test_cases, key=..., reverse=True)`. -/
def sortDesc (key : TestCase → ℚ) : List TestCase → List TestCase
  | [] => []
  | x :: xs => insertDesc key x (sortDesc key xs)

/-- `sort_test_cases_by_execution_time` in main.py: stable-sort the discovered
test cases by `history.get_average_execution_time(tc.name)`, longest first. -/
def sort_test_cases_by_execution_time (history : HistStore) (test_cases : List TestCase) :
    List TestCase :=
  sortDesc (fun tc => HistoricalTimes.get_average_execution_time history tc.name) test_cases

/-- The backlog-relevant data flow of `main` in main.py: it computes (and
logs) `sorted_test_cases := sort_test_cases_by_execution_time(test_cases)`,
then calls `distribute_tests(test_cases, squish_servers)`.  The first
component is the sorted list, the second the list actually handed to
`distribute_tests` (which puts it on the shared queue in order). -/
def main_backlogs (history : HistStore) (test_cases : List TestCase) :
    List TestCase × List TestCase :=
  (sort_test_cases_by_execution_time history test_cases, test_cases)

/-- The parsed YAML configuration file, as far as `Config.load_config`
reads it: the `squish_servers`, `squishrunner_path` and `test_suites_dir`
keys (`.get` returns `None` for a missing key). -/
structure ConfigFile where
  squish_servers : List String
  squishrunner_path : Option String
  test_suites_dir : Option String
deriving DecidableEq

/-- The separator in `server.split(":")`. -/
def colonSep : String := ":"

/-- `host, port = server.split(":"); SquishServer(host, int(port))`; `none`
models the raised `ValueError` (wrong arity or non-numeric port), which
`load_config` turns into `sys.exit(1)`. -/
def parseServer (s : String) : Option SquishServer :=
  match s.splitOn colonSep with
  | [h, p] => (p.toInt?).map (fun port => SquishServer.mk h port)
  | _ => none

/-- The attributes `Config.load_config` sets on the instance. -/
structure ConfigData where
  squish_servers : List SquishServer
  squishrunner_path : Option String
  test_suites_dir : Option String
deriving DecidableEq

/-- `Config.load_config`: parse every server entry and record the two paths;
`none` models the `sys.exit(1)` taken on any exception. -/
def load_config (f : ConfigFile) : Option ConfigData :=
  (f.squish_servers.mapM parseServer).map (fun servers =>
    { squish_servers := servers
      squishrunner_path := f.squishrunner_path
      test_suites_dir := f.test_suites_dir })

/-- A `Config` instance: `loaded` is `none` when the instance was created
without a config file, so `load_config` never ran on it. -/
structure ConfigInstance where
  loaded : Option ConfigData
deriving DecidableEq

/-- `Config.__new__`: `cls._instance` is the class-level singleton state
(second argument); the result pairs the returned instance with the new
class-level state.  `none` as the overall result models the `sys.exit(1)`
raised from a failing `load_config` on first construction. -/
def Config.new (config_file : Option ConfigFile) (instanceState : Option ConfigInstance) :
    Option (ConfigInstance × Option ConfigInstance) :=
  match instanceState with
  | some c => some (c, some c)
  | none =>
      match config_file with
      | none =>
          let c : ConfigInstance := { loaded := none }
          some (c, some c)
      | some f =>
          match load_config f with
          | none => none
          | some d =>
              let c : ConfigInstance := { loaded := some d }
              some (c, some c)

/-- The outcome of `subprocess.run(command, shell=True, check=True)`:
the process ran and exited with `code` (`check=True` raises
`CalledProcessError` when `code ≠ 0`), or the call itself raised some other
exception (`faults`), which `run_squish_test` does not catch. -/
inductive ProcBehavior where
  | exits (code : Nat)
  | faults
deriving DecidableEq

/-- Which log branch `run_squish_test` takes, mirroring its control flow:
the plain return, the `returncode == 44` debug branch, the other-nonzero
error branch, or an uncaught exception. -/
inductive RunLog where
  | passed
  | failedExpected
  | unexpectedError
  | raised
deriving DecidableEq

/-- What a call to `run_squish_test` leaves behind: the returned
`(str(test_case), success, execution_time)` tuple (`none` when an exception
propagated), the updated global `history`, and the branch taken. -/
structure RunOut where
  returned : Option (String × Bool × ℚ)
  history : HistStore
  log : RunLog
deriving DecidableEq

/-- `run_squish_test` in main.py.  `t0` and `t1` are the two `time.time()`
readings around the subprocess call; `execution_time = t1 - t0`.  On exit
code 0 the tuple is `(str(tc), True, dt)`; on `CalledProcessError` the code
records the duration and returns success `False`, logging the sentinel code
44 as an expected failure and any other code as an unexpected error.  Any
other exception propagates before `update_historical_time` runs. -/
def run_squish_test (tc : TestCase) (srv : SquishServer) (beh : ProcBehavior) (t0 t1 : ℚ)
    (history : HistStore) : RunOut :=
  match beh with
  | ProcBehavior.faults =>
      { returned := none, history := history, log := RunLog.raised }
  | ProcBehavior.exits code =>
      let dt := t1 - t0
      let history2 := HistoricalTimes.update_historical_time history tc.name dt
      if code = 0 then
        { returned := some (tc.str, true, dt), history := history2, log := RunLog.passed }
      else if code = 44 then
        { returned := some (tc.str, false, dt), history := history2,
          log := RunLog.failedExpected }
      else
        { returned := some (tc.str, false, dt), history := history2,
          log := RunLog.unexpectedError }

/-- The control point of one worker closure inside `distribute_tests`,
between the atomic actions it performs on shared state:

* `checking`       : at `while not test_case_queue.empty()`;
* `popping`        : condition passed, about to call `get_nowait()`;
* `running tc`     : popped `tc`, about to run it and store the result;
* `tasking tc`     : result stored, about to call `task_done()`;
* `handlingRaise tc` : in the `except` block because `run_squish_test`
  raised on `tc`, about to log and call `task_done()`;
* `handlingEmpty`  : in the `except` block because `get_nowait()` raised
  `Empty`, about to log (which reads the possibly-unbound local
  `test_case`) and call `task_done()`;
* `done`           : loop exited normally;
* `crashed`        : an exception escaped the worker (re-raised by
  `future.result()`). -/
inductive WStatus where
  | checking
  | popping
  | running (tc : TestCase)
  | tasking (tc : TestCase)
  | handlingRaise (tc : TestCase)
  | handlingEmpty
  | done
  | crashed
deriving DecidableEq

/-- One worker thread: its bound server, control point, and the current
binding of the local variable `test_case` (set by every successful pop,
`none` before the first pop). -/
structure Worker where
  server : SquishServer
  status : WStatus
  last : Option TestCase
deriving DecidableEq

/-- Increment `server_test_counts[str(server)]`. -/
def bumpCount : List (String × Nat) → String → List (String × Nat)
  | [], _ => []
  | (k, c) :: rest, n => if k = n then (k, c + 1) :: rest else (k, c) :: bumpCount rest n

/-- The shared state of one `distribute_tests` call: the queue contents, the
`results` mapping (insertion-ordered, values `[success, str(server), time]`),
the `server_test_counts` dict, the number of successful `task_done` calls
(`puts - dones` is the queue's `unfinished_tasks`), the global duration
store, and the workers.  `lost` is a ghost history of test cases whose
execution raised: it never influences a step and only serves the
invariants. -/
structure DistState where
  queue : List TestCase
  results : List (TestCase × Bool × String × ℚ)
  counts : List (String × Nat)
  dones : Nat
  history : HistStore
  workers : List Worker
  lost : List TestCase
deriving DecidableEq

/-- The environment of one invocation: for each (test case, server) pair the
subprocess behaviour and the two `time.time()` readings around it.  Each
pair is run at most once, so a deterministic oracle loses no generality. -/
def Oracle : Type :=
  TestCase → SquishServer → ProcBehavior × ℚ × ℚ

/-- One atomic action of worker `i`, following the worker body in
`distribute_tests` line by line.  `n` is the number of `put` calls (the
backlog length), which `task_done` checks: a `task_done` beyond `n`
raises `ValueError`.  `none` means worker `i` cannot act (absent index, or
already `done`/`crashed`). -/
def step (oracle : Oracle) (n : Nat) (s : DistState) (i : Nat) : Option DistState :=
  match s.workers[i]? with
  | none => none
  | some w =>
    match w.status with
    | WStatus.checking =>
        -- `while not test_case_queue.empty()`
        let st := if s.queue.isEmpty then WStatus.done else WStatus.popping
        some { s with workers := s.workers.set i { w with status := st } }
    | WStatus.popping =>
        -- `test_case = test_case_queue.get_nowait()`
        match s.queue with
        | [] => some { s with workers := s.workers.set i { w with status := WStatus.handlingEmpty } }
        | tc :: rest =>
            let w2 : Worker := { w with status := WStatus.running tc, last := some tc }
            some { s with
                     queue := rest
                     workers := s.workers.set i w2 }
    | WStatus.running tc =>
        -- `result = run_squish_test(test_case, server)` followed by the
        -- `results[test_case] = [result[1], str(server), result[2]]` and
        -- `server_test_counts[str(server)] += 1` writes
        let beh := oracle tc w.server
        let out := run_squish_test tc w.server beh.1 beh.2.1 beh.2.2 s.history
        match out.returned with
        | some r =>
            let w2 : Worker := { w with status := WStatus.tasking tc }
            some { s with
                     results := s.results ++ [(tc, r.2.1, w.server.str, r.2.2)]
                     counts := bumpCount s.counts w.server.str
                     history := out.history
                     workers := s.workers.set i w2 }
        | none =>
            let w2 : Worker := { w with status := WStatus.handlingRaise tc }
            some { s with
                     history := out.history
                     workers := s.workers.set i w2
                     lost := s.lost ++ [tc] }
    | WStatus.tasking _ =>
        -- `test_case_queue.task_done()` on the normal path
        if s.dones = n then
          some { s with workers := s.workers.set i { w with status := WStatus.crashed } }
        else
          some { s with
                   dones := s.dones + 1
                   workers := s.workers.set i { w with status := WStatus.checking } }
    | WStatus.handlingRaise _ =>
        -- the except block: log (the local `test_case` is bound), task_done
        if s.dones = n then
          some { s with workers := s.workers.set i { w with status := WStatus.crashed } }
        else
          some { s with
                   dones := s.dones + 1
                   workers := s.workers.set i { w with status := WStatus.checking } }
    | WStatus.handlingEmpty =>
        -- the except block after an `Empty`: the log line reads `test_case`,
        -- which raises `NameError` when unbound; otherwise task_done, which
        -- raises `ValueError` when every put is already matched
        match w.last with
        | none => some { s with workers := s.workers.set i { w with status := WStatus.crashed } }
        | some _ =>
            if s.dones = n then
              some { s with workers := s.workers.set i { w with status := WStatus.crashed } }
            else
              some { s with
                       dones := s.dones + 1
                       workers := s.workers.set i { w with status := WStatus.checking } }
    | WStatus.done => none
    | WStatus.crashed => none

/-- The state of `distribute_tests(test_cases, squish_servers)` after the
puts and the `ThreadPoolExecutor` submissions, before any worker acts. -/
def initState (test_cases : List TestCase) (squish_servers : List SquishServer)
    (history : HistStore) : DistState :=
  { queue := test_cases
    results := []
    counts := squish_servers.map (fun s => (s.str, 0))
    dones := 0
    history := history
    workers := squish_servers.map
      (fun s => { server := s, status := WStatus.checking, last := none })
    lost := [] }

/-- Interleaving reachability: any sequence of worker steps. -/
inductive Reach (oracle : Oracle) (n : Nat) : DistState → DistState → Prop
  | refl (s : DistState) : Reach oracle n s s
  | tail {s t u : DistState} (i : Nat) :
      Reach oracle n s t → step oracle n t i = some u → Reach oracle n s u

/-- A state in which `distribute_tests` has finished: every worker thread
has returned or raised. -/
def terminal (s : DistState) : Prop :=
  ∀ w ∈ s.workers, w.status = WStatus.done ∨ w.status = WStatus.crashed

instance (s : DistState) : Decidable (terminal s) := by
  unfold terminal
  infer_instance

/-- What the call returns: `future.result()` re-raises the first worker
exception, so the `results` mapping is returned exactly when no worker
crashed; `none` models the propagated exception. -/
def distOutcome (s : DistState) : Option (List (TestCase × Bool × String × ℚ)) :=
  if ∀ w ∈ s.workers, w.status = WStatus.done then some s.results else none

/-- Run a concrete schedule: apply the steps of `is` in order, ignoring
entries on which the chosen worker cannot act.  Every result is reachable. -/
def runSteps (oracle : Oracle) (n : Nat) (is : List Nat) (s : DistState) : DistState :=
  match is with
  | [] => s
  | i :: rest =>
      match step oracle n s i with
      | none => runSteps oracle n rest s
      | some t => runSteps oracle n rest t

/-! ### Helper lemmas about the descending stable sort -/

theorem mem_insertDesc {key : TestCase → ℚ} {x z : TestCase} :
    ∀ {l : List TestCase}, z ∈ insertDesc key x l → z = x ∨ z ∈ l := by
  intro l
  induction l with
  | nil => intro h; simpa [insertDesc] using h
  | cons y ys ih =>
      intro h
      by_cases hk : key x < key y
      · simp only [insertDesc, if_pos hk, List.mem_cons] at h
        rcases h with h | h
        · exact Or.inr (by simp [h])
        · rcases ih h with h | h
          · exact Or.inl h
          · exact Or.inr (List.mem_cons_of_mem _ h)
      · simp only [insertDesc, if_neg hk, List.mem_cons] at h
        rcases h with h | h
        · exact Or.inl h
        · exact Or.inr (by simpa using h)

theorem pairwise_insertDesc {key : TestCase → ℚ} (x : TestCase) :
    ∀ {l : List TestCase}, l.Pairwise (fun a b => key b ≤ key a) →
      (insertDesc key x l).Pairwise (fun a b => key b ≤ key a) := by
  intro l
  induction l with
  | nil => intro h; simp [insertDesc]
  | cons y ys ih =>
      intro h
      rcases List.pairwise_cons.mp h with ⟨hy, hys⟩
      by_cases hk : key x < key y
      · simp only [insertDesc, if_pos hk]
        refine List.pairwise_cons.mpr ⟨?_, ih hys⟩
        intro z hz
        rcases mem_insertDesc hz with rfl | hz
        · exact le_of_lt hk
        · exact hy z hz
      · simp only [insertDesc, if_neg hk]
        refine List.pairwise_cons.mpr ⟨?_, h⟩
        intro z hz
        rcases List.mem_cons.mp hz with rfl | hz
        · exact not_lt.mp hk
        · exact le_trans (hy z hz) (not_lt.mp hk)

theorem sortDesc_pairwise (key : TestCase → ℚ) :
    ∀ l : List TestCase, (sortDesc key l).Pairwise (fun a b => key b ≤ key a) := by
  intro l
  induction l with
  | nil => simp [sortDesc]
  | cons x xs ih => exact pairwise_insertDesc x ih

theorem insertDesc_decomp (key : TestCase → ℚ) (x : TestCase) :
    ∀ l : List TestCase, ∃ l1 l2, l = l1 ++ l2 ∧
      insertDesc key x l = l1 ++ x :: l2 ∧ ∀ y ∈ l1, key x < key y := by
  intro l
  induction l with
  | nil => exact ⟨[], [], by simp [insertDesc]⟩
  | cons y ys ih =>
      by_cases hk : key x < key y
      · rcases ih with ⟨l1, l2, hdec, hins, hgt⟩
        refine ⟨y :: l1, l2, by simp [hdec], ?_, ?_⟩
        · simp [insertDesc, if_pos hk, hins]
        · intro z hz
          rcases List.mem_cons.mp hz with rfl | hz
          · exact hk
          · exact hgt z hz
      · exact ⟨[], y :: ys, by simp, by simp [insertDesc, if_neg hk], by simp⟩

theorem filter_insertDesc (key : TestCase → ℚ) (x : TestCase) (v : ℚ)
    (l : List TestCase) :
    (insertDesc key x l).filter (fun tc => decide (key tc = v)) =
      if key x = v then x :: l.filter (fun tc => decide (key tc = v))
      else l.filter (fun tc => decide (key tc = v)) := by
  rcases insertDesc_decomp key x l with ⟨l1, l2, hdec, hins, hgt⟩
  have hl1 : l1.filter (fun tc => decide (key tc = v)) =
      if key x = v then [] else l1.filter (fun tc => decide (key tc = v)) := by
    by_cases hv : key x = v
    · rw [if_pos hv]
      refine List.filter_eq_nil_iff.mpr ?_
      intro y hy
      have := hgt y hy
      simp only [decide_eq_true_eq]
      intro he
      exact absurd (hv ▸ he) (ne_of_gt this)
    · rw [if_neg hv]
  subst hdec
  rw [hins]
  by_cases hv : key x = v
  · simp only [if_pos hv, List.filter_append, List.filter_cons]
    rw [if_pos hv] at hl1
    simp [hl1, hv]
  · simp only [if_neg hv, List.filter_append, List.filter_cons]
    simp [hv]

theorem sortDesc_filter_eq (key : TestCase → ℚ) (v : ℚ) :
    ∀ l : List TestCase,
      (sortDesc key l).filter (fun tc => decide (key tc = v)) =
        l.filter (fun tc => decide (key tc = v)) := by
  intro l
  induction l with
  | nil => simp [sortDesc]
  | cons x xs ih =>
      show (insertDesc key x (sortDesc key xs)).filter _ = _
      rw [filter_insertDesc, ih]
      by_cases hv : key x = v
      · simp [List.filter_cons, hv]
      · simp [List.filter_cons, hv]

/-! ### Concrete instances used by counterexamples and witnesses -/

def nmA : String := "a"

def nmB : String := "b"

def nmC : String := "c"

def nmD : String := "d"

def nmE : String := "e"

def nmF : String := "f"

def suiteS : String := "suite1"

def tcA : TestCase := { name := nmA, suite := suiteS }

def tcB : TestCase := { name := nmB, suite := suiteS }

def tcC : TestCase := { name := nmC, suite := suiteS }

def tcD : TestCase := { name := nmD, suite := suiteS }

def tcE : TestCase := { name := nmE, suite := suiteS }

def tcF : TestCase := { name := nmF, suite := suiteS }

/-- Five tests with single historical samples [5, 1, 9, 3, 7]; `f` has none. -/
def fiveStore : HistStore :=
  [(nmA, [5]), (nmB, [1]), (nmC, [9]), (nmD, [3]), (nmE, [7])]

/-- The spec scenario backlog: five known tests plus the no-history `f`. -/
def sixBacklog : List TestCase := [tcA, tcB, tcC, tcD, tcE, tcF]

/-! ### C9 -/

/-- C9: sorting the backlog by descending historical mean duration is stable:
for every backlog, store and key value `v`, the test cases whose mean equals
`v` appear in the sorted output in exactly their original relative order. -/
theorem sort_test_cases_stable (h : HistStore) (l : List TestCase) (v : ℚ) :
    (sort_test_cases_by_execution_time h l).filter
        (fun tc => decide (HistoricalTimes.get_average_execution_time h tc.name = v)) =
      l.filter
        (fun tc => decide (HistoricalTimes.get_average_execution_time h tc.name = v)) := by
  exact sortDesc_filter_eq _ v l

/-- Evaluation helper: the mean for a test with recorded times `ts`. -/
theorem avg_of_times {h : HistStore} {n : String} {ts : List ℚ}
    (hts : HistoricalTimes.get_execution_times h n = ts) (hne : ts ≠ []) :
    HistoricalTimes.get_average_execution_time h n = statistics_mean ts := by
  unfold HistoricalTimes.get_average_execution_time
  rw [hts]
  simp [hne]

/-! ### C3 -/

/-- C3 counterexample: in the spec's own scenario (historical means
[5, 1, 9, 3, 7] plus the no-history test `f`), the sort key assigned to `f`
is 0, not the running average 5 of the already-placed tests, and `f` is
sorted to the very back, not near the middle. -/
theorem no_history_counterexample :
    HistoricalTimes.get_average_execution_time fiveStore nmF = 0
    ∧ statistics_mean [5, 1, 9, 3, 7] = 5
    ∧ HistoricalTimes.get_average_execution_time fiveStore nmF ≠
        statistics_mean [5, 1, 9, 3, 7]
    ∧ sort_test_cases_by_execution_time fiveStore sixBacklog =
        [tcC, tcE, tcA, tcD, tcB, tcF] := by
  have em : statistics_mean [5, 1, 9, 3, 7] = 5 := by
    norm_num [statistics_mean]
  have eA : HistoricalTimes.get_average_execution_time fiveStore nmA = 5 := by
    rw [avg_of_times (show HistoricalTimes.get_execution_times fiveStore nmA = [5] by decide)
      (by decide)]
    norm_num [statistics_mean]
  have eB : HistoricalTimes.get_average_execution_time fiveStore nmB = 1 := by
    rw [avg_of_times (show HistoricalTimes.get_execution_times fiveStore nmB = [1] by decide)
      (by decide)]
    norm_num [statistics_mean]
  have eC : HistoricalTimes.get_average_execution_time fiveStore nmC = 9 := by
    rw [avg_of_times (show HistoricalTimes.get_execution_times fiveStore nmC = [9] by decide)
      (by decide)]
    norm_num [statistics_mean]
  have eD : HistoricalTimes.get_average_execution_time fiveStore nmD = 3 := by
    rw [avg_of_times (show HistoricalTimes.get_execution_times fiveStore nmD = [3] by decide)
      (by decide)]
    norm_num [statistics_mean]
  have eE : HistoricalTimes.get_average_execution_time fiveStore nmE = 7 := by
    rw [avg_of_times (show HistoricalTimes.get_execution_times fiveStore nmE = [7] by decide)
      (by decide)]
    norm_num [statistics_mean]
  have eF : HistoricalTimes.get_average_execution_time fiveStore nmF = 0 := by decide
  refine ⟨eF, em, by rw [eF, em]; norm_num, ?_⟩
  simp only [sort_test_cases_by_execution_time, sortDesc, insertDesc, sixBacklog,
    tcA, tcB, tcC, tcD, tcE, tcF, eA, eB, eC, eD, eE, eF]
  norm_num [tcA, tcB, tcC, tcD, tcE, tcF]

/-- C3 amended: a test case with no recorded history is assigned the sort key
0, and the sorted output is ordered by non-increasing key throughout, so such
a test is placed at the back of the descending order (never before any test
with a positive mean). -/
theorem no_history_key_is_zero :
    (∀ (h : HistStore) (n : String),
        HistoricalTimes.get_execution_times h n = [] →
        HistoricalTimes.get_average_execution_time h n = 0)
    ∧ ∀ (h : HistStore) (l : List TestCase),
        (sort_test_cases_by_execution_time h l).Pairwise
          (fun x y => HistoricalTimes.get_average_execution_time h y.name ≤
            HistoricalTimes.get_average_execution_time h x.name) := by
  constructor
  · intro h n he
    unfold HistoricalTimes.get_average_execution_time
    simp [he]
  · intro h l
    exact sortDesc_pairwise _ l

/-- Witness for the amended C3 at a concrete input. -/
theorem no_history_key_is_zero_witness :
    HistoricalTimes.get_execution_times fiveStore nmF = []
    ∧ HistoricalTimes.get_average_execution_time fiveStore nmF = 0 :=
  ⟨by decide, no_history_key_is_zero.1 fiveStore nmF (by decide)⟩

/-! ### C2 -/

/-- History giving test `a` mean 1 and test `b` mean 9. -/
def twoStore : HistStore := [(nmA, [1]), (nmB, [9])]

/-- C2 (code bug evidence): with discovery order [a, b] and means a ↦ 1,
b ↦ 9, `main` computes the sorted backlog [b, a] but passes the raw
discovery-order list [a, b] to `distribute_tests`, which enqueues exactly
that unsorted list. -/
theorem main_enqueues_unsorted_backlog :
    (main_backlogs twoStore [tcA, tcB]).1 = [tcB, tcA]
    ∧ (main_backlogs twoStore [tcA, tcB]).2 = [tcA, tcB]
    ∧ (main_backlogs twoStore [tcA, tcB]).2 ≠ (main_backlogs twoStore [tcA, tcB]).1
    ∧ (initState (main_backlogs twoStore [tcA, tcB]).2 [] twoStore).queue = [tcA, tcB] := by
  have eA : HistoricalTimes.get_average_execution_time twoStore nmA = 1 := by
    rw [avg_of_times (show HistoricalTimes.get_execution_times twoStore nmA = [1] by decide)
      (by decide)]
    norm_num [statistics_mean]
  have eB : HistoricalTimes.get_average_execution_time twoStore nmB = 9 := by
    rw [avg_of_times (show HistoricalTimes.get_execution_times twoStore nmB = [9] by decide)
      (by decide)]
    norm_num [statistics_mean]
  have hsorted : (main_backlogs twoStore [tcA, tcB]).1 = [tcB, tcA] := by
    simp only [main_backlogs, sort_test_cases_by_execution_time, sortDesc, insertDesc,
      tcA, tcB, eA, eB]
    norm_num [tcA, tcB]
  refine ⟨hsorted, rfl, ?_, rfl⟩
  rw [hsorted]
  decide

/-! ### C5 -/

/-- Store with a single test `a` whose durations are [10, 20, 30]. -/
def threeStore : HistStore := [(nmA, [10, 20, 30])]

/-- C5: mean/median/stddev return 0.0 for every identifier the store has no
data for (whatever else the store holds); a single sample is its own mean
and median with stddev 0; and for durations [10, 20, 30] the mean is 20,
the median 20, and the standard deviation 10. -/
theorem duration_statistics_contract :
    (∀ (h : HistStore) (n : String),
        HistoricalTimes.get_execution_times h n = [] →
          HistoricalTimes.get_average_execution_time h n = 0
          ∧ HistoricalTimes.get_median_execution_time h n = 0
          ∧ HistoricalTimes.get_standard_deviation h n = 0)
    ∧ (∀ (h : HistStore) (n : String) (x : ℚ),
        HistoricalTimes.get_execution_times h n = [x] →
          HistoricalTimes.get_average_execution_time h n = x
          ∧ HistoricalTimes.get_median_execution_time h n = x
          ∧ HistoricalTimes.get_standard_deviation h n = 0)
    ∧ HistoricalTimes.get_average_execution_time threeStore nmA = 20
    ∧ HistoricalTimes.get_median_execution_time threeStore nmA = 20
    ∧ HistoricalTimes.get_standard_deviation threeStore nmA = 10 := by
  refine ⟨?_, ?_, ?_, ?_, ?_⟩
  · intro h n he
    refine ⟨?_, ?_, ?_⟩
    · unfold HistoricalTimes.get_average_execution_time
      simp [he]
    · unfold HistoricalTimes.get_median_execution_time
      simp [he]
    · unfold HistoricalTimes.get_standard_deviation
      simp [he]
  · intro h n x hts
    refine ⟨?_, ?_, ?_⟩
    · rw [avg_of_times hts (by simp)]
      simp [statistics_mean]
    · unfold HistoricalTimes.get_median_execution_time
      rw [hts]
      simp [statistics_median, sortAsc, insertAsc]
    · unfold HistoricalTimes.get_standard_deviation
      rw [hts]
      simp
  · rw [avg_of_times
      (show HistoricalTimes.get_execution_times threeStore nmA = [10, 20, 30] by decide)
      (by decide)]
    norm_num [statistics_mean]
  · unfold HistoricalTimes.get_median_execution_time
    rw [show HistoricalTimes.get_execution_times threeStore nmA = [10, 20, 30] by decide]
    rw [if_neg (by decide : ¬([10, 20, 30] : List ℚ) = [])]
    norm_num [statistics_median, sortAsc, insertAsc]
  · unfold HistoricalTimes.get_standard_deviation
    rw [show HistoricalTimes.get_execution_times threeStore nmA = [10, 20, 30] by decide]
    have hv : statistics_variance [10, 20, 30] = 100 := by
      norm_num [statistics_variance, statistics_mean]
    norm_num [statistics_stdev, hv]
    rw [show (100 : ℝ) = 10 ^ 2 by norm_num]
    exact Real.sqrt_sq (by norm_num)

/-- Witness for the no-data part (at a non-empty store lacking the id) and
the single-sample part of the statistics contract. -/
theorem duration_statistics_contract_witness :
    (HistoricalTimes.get_execution_times fiveStore nmF = []
      ∧ HistoricalTimes.get_average_execution_time fiveStore nmF = 0
      ∧ HistoricalTimes.get_median_execution_time fiveStore nmF = 0
      ∧ HistoricalTimes.get_standard_deviation fiveStore nmF = 0)
    ∧ HistoricalTimes.get_execution_times twoStore nmB = [9]
    ∧ HistoricalTimes.get_average_execution_time twoStore nmB = 9
    ∧ HistoricalTimes.get_median_execution_time twoStore nmB = 9
    ∧ HistoricalTimes.get_standard_deviation twoStore nmB = 0 := by
  have h0 := duration_statistics_contract.1 fiveStore nmF (by decide)
  have h := duration_statistics_contract.2.1 twoStore nmB 9 (by decide)
  exact ⟨⟨by decide, h0.1, h0.2.1, h0.2.2⟩, by decide, h.1, h.2.1, h.2.2⟩

/-! ### C6 -/

theorem parseNums_dump (ts : List ℚ) : parseNums (ts.map Json.num) = some ts := by
  induction ts with
  | nil => rfl
  | cons x xs ih => simp [parseNums, ih]

theorem parseHistory_dump (h : HistStore) : parseHistory (dumpHistory h) = some h := by
  unfold parseHistory dumpHistory
  induction h with
  | nil => rfl
  | cons p rest ih =>
      simp only [List.map_cons, parseFields, parseFloatList, parseNums_dump]
      simp only [dumpHistory, parseHistory] at ih
      simp [ih]

/-- C6: saving a non-empty store and loading the saved file into a fresh
store reproduces a store whose mean, median and standard deviation agree
with the original on every test identifier. -/
theorem save_load_roundtrip (h : HistStore) (hne : h ≠ []) :
    ∃ h2, HistoricalTimes.load_execution_history
        (some (HistoricalTimes.save_execution_history h)) = some h2
      ∧ ∀ n : String,
          HistoricalTimes.get_average_execution_time h2 n =
            HistoricalTimes.get_average_execution_time h n
          ∧ HistoricalTimes.get_median_execution_time h2 n =
            HistoricalTimes.get_median_execution_time h n
          ∧ HistoricalTimes.get_standard_deviation h2 n =
            HistoricalTimes.get_standard_deviation h n := by
  refine ⟨h, ?_, fun n => ⟨rfl, rfl, rfl⟩⟩
  unfold HistoricalTimes.load_execution_history HistoricalTimes.save_execution_history
  exact parseHistory_dump h

/-- Witness for the round trip at a concrete non-empty store. -/
theorem save_load_roundtrip_witness :
    threeStore ≠ []
    ∧ ∃ h2, HistoricalTimes.load_execution_history
        (some (HistoricalTimes.save_execution_history threeStore)) = some h2
      ∧ ∀ n : String,
          HistoricalTimes.get_average_execution_time h2 n =
            HistoricalTimes.get_average_execution_time threeStore n
          ∧ HistoricalTimes.get_median_execution_time h2 n =
            HistoricalTimes.get_median_execution_time threeStore n
          ∧ HistoricalTimes.get_standard_deviation h2 n =
            HistoricalTimes.get_standard_deviation threeStore n :=
  ⟨by decide, save_load_roundtrip threeStore (by decide)⟩

/-! ### C7 -/

/-- A concrete server for witnesses. -/
def hostH1 : String := "h1"

def srv1 : SquishServer := { host := hostH1, port := 4322 }

/-- C7: `run_squish_test` distinguishes exactly the sentinel exit code 44
(expected test failure, debug log) from any other non-zero exit (unexpected
error log); both failure classes return success = false together with the
measured wall-clock duration `t1 - t0`, and every exit outcome records that
duration into the duration store. -/
theorem run_squish_test_contract (tc : TestCase) (srv : SquishServer) (c : Nat)
    (t0 t1 : ℚ) (h : HistStore) :
    ((run_squish_test tc srv (ProcBehavior.exits c) t0 t1 h).history =
        HistoricalTimes.update_historical_time h tc.name (t1 - t0))
    ∧ (c = 0 → (run_squish_test tc srv (ProcBehavior.exits c) t0 t1 h).returned =
        some (tc.str, true, t1 - t0))
    ∧ (c ≠ 0 → (run_squish_test tc srv (ProcBehavior.exits c) t0 t1 h).returned =
        some (tc.str, false, t1 - t0))
    ∧ (c ≠ 0 → c = 44 → (run_squish_test tc srv (ProcBehavior.exits c) t0 t1 h).log =
        RunLog.failedExpected)
    ∧ (c ≠ 0 → c ≠ 44 → (run_squish_test tc srv (ProcBehavior.exits c) t0 t1 h).log =
        RunLog.unexpectedError) := by
  unfold run_squish_test
  by_cases h0 : c = 0
  · subst h0
    refine ⟨by simp, fun _ => by simp, fun hc => absurd rfl hc, fun hc => absurd rfl hc, ?_⟩
    intro hc
    exact absurd rfl hc
  · by_cases h44 : c = 44
    · subst h44
      exact ⟨by simp, fun hc => absurd hc (by decide), fun _ => by simp,
        fun _ _ => by simp, fun _ hc => absurd rfl hc⟩
    · exact ⟨by simp [h0, h44], fun hc => absurd hc h0, fun _ => by simp [h0, h44],
        fun _ hc => absurd hc h44, fun _ _ => by simp [h0, h44]⟩

/-- Witness: the two failure classes at exit codes 44 and 7. -/
theorem run_squish_test_contract_witness :
    ((run_squish_test tcA srv1 (ProcBehavior.exits 44) 0 2 []).log =
        RunLog.failedExpected)
    ∧ ((run_squish_test tcA srv1 (ProcBehavior.exits 44) 0 2 []).returned =
        some (tcA.str, false, 2 - 0))
    ∧ ((run_squish_test tcA srv1 (ProcBehavior.exits 7) 0 2 []).log =
        RunLog.unexpectedError) :=
  ⟨(run_squish_test_contract tcA srv1 44 0 2 []).2.2.2.1 (by decide) rfl,
   (run_squish_test_contract tcA srv1 44 0 2 []).2.2.1 (by decide),
   (run_squish_test_contract tcA srv1 7 0 2 []).2.2.2.2 (by decide) (by decide)⟩

/-! ### C8 -/

/-- Every duration recorded anywhere in the store is non-negative. -/
def NonnegStore (h : HistStore) : Prop :=
  ∀ p ∈ h, ∀ x ∈ p.2, 0 ≤ x

theorem update_preserves_nonneg (h : HistStore) (n : String) (t : ℚ)
    (hs : NonnegStore h) (ht : 0 ≤ t) :
    NonnegStore (HistoricalTimes.update_historical_time h n t) := by
  induction h with
  | nil =>
      intro p hp x hx
      simp only [HistoricalTimes.update_historical_time, List.mem_singleton] at hp
      subst hp
      simp only [List.mem_singleton] at hx
      subst hx
      exact ht
  | cons q rest ih =>
      obtain ⟨k, ts⟩ := q
      intro p hp x hx
      by_cases hk : k = n
      · simp only [HistoricalTimes.update_historical_time, if_pos hk, List.mem_cons] at hp
        rcases hp with rfl | hp
        · rcases List.mem_append.mp hx with hx | hx
          · exact hs (k, ts) (List.mem_cons_self _ _) x hx
          · simp only [List.mem_singleton] at hx
            subst hx
            exact ht
        · exact hs p (List.mem_cons_of_mem _ hp) x hx
      · simp only [HistoricalTimes.update_historical_time, if_neg hk, List.mem_cons] at hp
        rcases hp with rfl | hp
        · exact hs (k, ts) (List.mem_cons_self _ _) x hx
        · exact ih (fun r hr => hs r (List.mem_cons_of_mem _ hr)) p hp x hx

/-- C8: the program only ever appends non-negative durations: updating a
store whose durations are all non-negative with a non-negative duration
preserves the invariant, and `run_squish_test` (whose recorded duration is
the difference of the two clock readings around the subprocess call)
preserves it whenever the clock does not run backwards. -/
theorem durations_nonneg_invariant :
    (∀ (h : HistStore) (n : String) (t : ℚ), NonnegStore h → 0 ≤ t →
        NonnegStore (HistoricalTimes.update_historical_time h n t))
    ∧ ∀ (tc : TestCase) (srv : SquishServer) (beh : ProcBehavior) (t0 t1 : ℚ)
        (h : HistStore), NonnegStore h → t0 ≤ t1 →
        NonnegStore ((run_squish_test tc srv beh t0 t1 h).history) := by
  refine ⟨update_preserves_nonneg, ?_⟩
  intro tc srv beh t0 t1 h hs hclock
  cases beh with
  | faults => exact hs
  | exits c =>
      have hd : 0 ≤ t1 - t0 := sub_nonneg.mpr hclock
      unfold run_squish_test
      by_cases h0 : c = 0
      · subst h0
        simpa using update_preserves_nonneg h tc.name (t1 - t0) hs hd
      · by_cases h44 : c = 44
        · subst h44
          simpa using update_preserves_nonneg h tc.name (t1 - t0) hs hd
        · simpa [h0, h44] using update_preserves_nonneg h tc.name (t1 - t0) hs hd

/-- Witness: one update of the empty store with duration 3. -/
theorem durations_nonneg_invariant_witness :
    NonnegStore (HistoricalTimes.update_historical_time [] nmA 3) :=
  durations_nonneg_invariant.1 [] nmA 3 (fun p hp => absurd hp (List.not_mem_nil p))
    (by norm_num)

/-! ### C10 -/

/-- C10: `Config` is a process-wide singleton: once an instance exists, any
later construction, with any (even different) config file argument, returns
the same instance and leaves the class state unchanged, never reloading. -/
theorem config_singleton (f1 : ConfigFile) (d : ConfigData)
    (hload : load_config f1 = some d) :
    Config.new (some f1) none = some (⟨some d⟩, some ⟨some d⟩)
    ∧ ∀ (c : ConfigInstance) (f2 : Option ConfigFile),
        Config.new f2 (some c) = some (c, some c) := by
  constructor
  · simp [Config.new, hload]
  · intro c f2
    rfl

/-- A config file with no servers and no paths; it loads successfully. -/
def emptyCfgFile : ConfigFile :=
  { squish_servers := [], squishrunner_path := none, test_suites_dir := none }

def emptyCfgData : ConfigData :=
  { squish_servers := [], squishrunner_path := none, test_suites_dir := none }

/-- A directory entry used to build a second, different config file. -/
def dirEntry : String := "/tmp/suites"

def otherCfgFile : ConfigFile :=
  { squish_servers := [], squishrunner_path := none, test_suites_dir := some dirEntry }

/-- Witness: constructing with `emptyCfgFile` and then again with a
different file returns the first instance unchanged. -/
theorem config_singleton_witness :
    Config.new (some emptyCfgFile) none =
      some (⟨some emptyCfgData⟩, some ⟨some emptyCfgData⟩)
    ∧ Config.new (some otherCfgFile) (some ⟨some emptyCfgData⟩) =
      some (⟨some emptyCfgData⟩, some ⟨some emptyCfgData⟩) :=
  ⟨(config_singleton emptyCfgFile emptyCfgData rfl).1,
   (config_singleton emptyCfgFile emptyCfgData rfl).2 ⟨some emptyCfgData⟩
     (some otherCfgFile)⟩

/-! ### Invariants of the distributor machine -/

/-- The test case a worker has popped but not yet recorded or abandoned. -/
def Worker.holding (w : Worker) : List TestCase :=
  match w.status with
  | WStatus.running tc => [tc]
  | _ => []

/-- 1 when the worker has popped an item whose matching `task_done` has not
yet happened. -/
def inflightWeight (w : Worker) : Nat :=
  match w.status with
  | WStatus.running _ => 1
  | WStatus.tasking _ => 1
  | WStatus.handlingRaise _ => 1
  | _ => 0

/-- All test cases popped but not yet recorded or abandoned. -/
def holdings (s : DistState) : List TestCase :=
  (s.workers.map Worker.holding).flatten

/-- Pops whose matching `task_done` is still outstanding. -/
def inflight (s : DistState) : Nat :=
  (s.workers.map inflightWeight).sum

/-- The keys of the `results` mapping. -/
def recordedKeys (s : DistState) : List TestCase :=
  s.results.map (fun r => r.1)

/-- The inductive invariant of `distribute_tests`, relative to the backlog,
the configured servers, and the behaviour oracle. -/
structure DistInv (backlog : List TestCase) (servers : List SquishServer)
    (oracle : Oracle) (s : DistState) : Prop where
  perm : backlog.Perm (s.queue ++ holdings s ++ recordedKeys s ++ s.lost)
  active : s.queue ≠ [] → ∀ w ∈ s.workers,
      w.status ≠ WStatus.done ∧ w.status ≠ WStatus.crashed ∧
        w.status ≠ WStatus.handlingEmpty
  balance : s.queue ≠ [] → s.dones + inflight s + s.queue.length = backlog.length
  dones_le : s.dones ≤ backlog.length
  lower : (∀ w ∈ s.workers, w.status ≠ WStatus.crashed) →
      backlog.length ≤ s.dones + inflight s + s.queue.length
  servers_eq : s.workers.map Worker.server = servers
  lost_faults : ∀ tc ∈ s.lost, ∃ srv ∈ servers,
      (oracle tc srv).1 = ProcBehavior.faults

/-- Decompose a list at a position known through `getElem?`. -/
theorem getElem?_decomp {α : Type} (l : List α) (i : Nat) (a : α)
    (h : l[i]? = some a) :
    ∃ A B, l = A ++ a :: B ∧ A.length = i ∧ ∀ x, l.set i x = A ++ x :: B := by
  induction l generalizing i with
  | nil => simp at h
  | cons b t ih =>
      cases i with
      | zero =>
          simp only [List.getElem?_cons_zero, Option.some.injEq] at h
          subst h
          exact ⟨[], t, rfl, rfl, fun x => rfl⟩
      | succ j =>
          simp only [List.getElem?_cons_succ] at h
          rcases ih j h with ⟨A, B, hAB, hlen, hset⟩
          refine ⟨b :: A, B, by simp [hAB], by simp [hlen], fun x => ?_⟩
          simp [List.set, hset x]

theorem flatten_map_const_nil {α β : Type} (l : List α) (f : α → List β)
    (hf : ∀ x ∈ l, f x = []) : (l.map f).flatten = [] := by
  induction l with
  | nil => rfl
  | cons a t ih =>
      simp only [List.map_cons, List.flatten_cons, hf a (List.mem_cons_self a t)]
      exact ih (fun x hx => hf x (List.mem_cons_of_mem a hx))

theorem sum_map_const_zero {α : Type} (l : List α) (f : α → Nat)
    (hf : ∀ x ∈ l, f x = 0) : (l.map f).sum = 0 := by
  induction l with
  | nil => rfl
  | cons a t ih =>
      simp only [List.map_cons, List.sum_cons, hf a (List.mem_cons_self a t), Nat.zero_add]
      exact ih (fun x hx => hf x (List.mem_cons_of_mem a hx))

theorem map_eq_self {α : Type} (l : List α) (f : α → α)
    (hf : ∀ x ∈ l, f x = x) : l.map f = l := by
  induction l with
  | nil => rfl
  | cons a t ih =>
      simp only [List.map_cons, hf a (List.mem_cons_self a t)]
      rw [ih (fun x hx => hf x (List.mem_cons_of_mem a hx))]

/-- The invariant holds in the initial state. -/
theorem distInv_init (backlog : List TestCase) (servers : List SquishServer)
    (h0 : HistStore) (oracle : Oracle) :
    DistInv backlog servers oracle (initState backlog servers h0) := by
  have hh : holdings (initState backlog servers h0) = [] := by
    unfold holdings initState
    rw [List.map_map]
    exact flatten_map_const_nil _ _ (fun x hx => rfl)
  have hi : inflight (initState backlog servers h0) = 0 := by
    unfold inflight initState
    rw [List.map_map]
    exact sum_map_const_zero _ _ (fun x hx => rfl)
  refine ⟨?_, ?_, ?_, ?_, ?_, ?_, ?_⟩
  · rw [hh]
    simp [initState, recordedKeys]
  · intro hne w hw
    simp only [initState, List.mem_map] at hw
    rcases hw with ⟨srv, hsrv, rfl⟩
    refine ⟨by simp, by simp, by simp⟩
  · intro hne
    rw [hi]
    simp [initState]
  · simp [initState]
  · intro hnc
    rw [hi]
    simp [initState]
  · unfold initState
    rw [List.map_map]
    exact map_eq_self _ _ (fun x hx => rfl)
  · intro tc htc
    simp [initState] at htc

/-! ### Behaviour of one executor call, as the machine sees it -/

theorem run_exits_returned (tc : TestCase) (srv : SquishServer) (c : Nat) (t0 t1 : ℚ)
    (h : HistStore) :
    (run_squish_test tc srv (ProcBehavior.exits c) t0 t1 h).returned =
      some (tc.str, decide (c = 0), t1 - t0) := by
  unfold run_squish_test
  by_cases h0 : c = 0
  · subst h0; simp
  · by_cases h44 : c = 44
    · subst h44; simp
    · simp [h0, h44]

theorem run_faults_returned (tc : TestCase) (srv : SquishServer) (t0 t1 : ℚ)
    (h : HistStore) :
    (run_squish_test tc srv ProcBehavior.faults t0 t1 h).returned = none := rfl

theorem flatten_holding_append (A B : List Worker) (x : Worker) :
    ((A ++ x :: B).map Worker.holding).flatten =
      (A.map Worker.holding).flatten ++ (Worker.holding x ++ (B.map Worker.holding).flatten) := by
  simp [List.map_append, List.flatten_append]

theorem sum_inflight_append (A B : List Worker) (x : Worker) :
    ((A ++ x :: B).map inflightWeight).sum =
      (A.map inflightWeight).sum + (inflightWeight x + (B.map inflightWeight).sum) := by
  simp [List.map_append]

theorem mem_split {A B : List Worker} {w y : Worker} (hy : y ∈ A ++ w :: B) :
    y = w ∨ y ∈ A ++ B := by
  rcases List.mem_append.mp hy with h | h
  · exact Or.inr (List.mem_append.mpr (Or.inl h))
  · rcases List.mem_cons.mp h with h | h
    · exact Or.inl h
    · exact Or.inr (List.mem_append.mpr (Or.inr h))

theorem mem_reassemble {A B : List Worker} (w : Worker) {y : Worker} (hy : y ∈ A ++ B) :
    y ∈ A ++ w :: B := by
  rcases List.mem_append.mp hy with h | h
  · exact List.mem_append.mpr (Or.inl h)
  · exact List.mem_append.mpr (Or.inr (List.mem_cons_of_mem _ h))

theorem mem_self_middle (A B : List Worker) (w : Worker) : w ∈ A ++ w :: B :=
  List.mem_append.mpr (Or.inr (List.mem_cons_self _ _))

/-- Replacing one worker by another with the same held item, the same
in-flight weight, and the same server, while no other field changes,
preserves the invariant. -/
theorem distInv_swap {backlog : List TestCase} {servers : List SquishServer}
    {oracle : Oracle} {s : DistState} {A B : List Worker} {w w2 : Worker}
    (inv : DistInv backlog servers oracle s)
    (hAB : s.workers = A ++ w :: B)
    (hold : Worker.holding w2 = Worker.holding w)
    (hwt : inflightWeight w2 = inflightWeight w)
    (hsrv : w2.server = w.server)
    (hok : s.queue ≠ [] → w2.status ≠ WStatus.done ∧ w2.status ≠ WStatus.crashed ∧
        w2.status ≠ WStatus.handlingEmpty)
    (hwnc : w.status ≠ WStatus.crashed) :
    DistInv backlog servers oracle { s with workers := A ++ w2 :: B } := by
  have hh : holdings { s with workers := A ++ w2 :: B } = holdings s := by
    show ((A ++ w2 :: B).map Worker.holding).flatten = (s.workers.map Worker.holding).flatten
    rw [hAB, flatten_holding_append, flatten_holding_append, hold]
  have hi : inflight { s with workers := A ++ w2 :: B } = inflight s := by
    show ((A ++ w2 :: B).map inflightWeight).sum = (s.workers.map inflightWeight).sum
    rw [hAB, sum_inflight_append, sum_inflight_append, hwt]
  refine ⟨?_, ?_, ?_, ?_, ?_, ?_, ?_⟩
  · show backlog.Perm (s.queue ++ _ ++ recordedKeys _ ++ s.lost)
    rw [show recordedKeys { s with workers := A ++ w2 :: B } = recordedKeys s from rfl, hh]
    exact inv.perm
  · intro hne y hy
    rcases mem_split hy with rfl | hy2
    · exact hok hne
    · exact inv.active hne y (hAB ▸ mem_reassemble w hy2)
  · intro hne
    show s.dones + _ + s.queue.length = backlog.length
    rw [hi]
    exact inv.balance hne
  · exact inv.dones_le
  · intro hnc
    show backlog.length ≤ s.dones + _ + s.queue.length
    rw [hi]
    refine inv.lower ?_
    intro y hy
    rw [hAB] at hy
    rcases mem_split hy with rfl | hy2
    · exact hwnc
    · exact hnc y (mem_reassemble w2 hy2)
  · show (A ++ w2 :: B).map Worker.server = servers
    have hse := inv.servers_eq
    rw [hAB] at hse
    simpa [List.map_append, hsrv] using hse
  · exact inv.lost_faults

/-- A worker that crashes while holding nothing, with the queue already
empty, preserves the invariant. -/
theorem distInv_crash {backlog : List TestCase} {servers : List SquishServer}
    {oracle : Oracle} {s : DistState} {A B : List Worker} {w w2 : Worker}
    (inv : DistInv backlog servers oracle s)
    (hAB : s.workers = A ++ w :: B)
    (hqe : s.queue = [])
    (hold : Worker.holding w2 = Worker.holding w)
    (hsrv : w2.server = w.server)
    (hcr : w2.status = WStatus.crashed) :
    DistInv backlog servers oracle { s with workers := A ++ w2 :: B } := by
  have hh : holdings { s with workers := A ++ w2 :: B } = holdings s := by
    show ((A ++ w2 :: B).map Worker.holding).flatten = (s.workers.map Worker.holding).flatten
    rw [hAB, flatten_holding_append, flatten_holding_append, hold]
  refine ⟨?_, ?_, ?_, ?_, ?_, ?_, ?_⟩
  · show backlog.Perm (s.queue ++ _ ++ recordedKeys _ ++ s.lost)
    rw [show recordedKeys { s with workers := A ++ w2 :: B } = recordedKeys s from rfl, hh]
    exact inv.perm
  · intro hne
    exact absurd hqe hne
  · intro hne
    exact absurd hqe hne
  · exact inv.dones_le
  · intro hnc
    exact absurd hcr (hnc w2 (mem_self_middle A B w2))
  · show (A ++ w2 :: B).map Worker.server = servers
    have hse := inv.servers_eq
    rw [hAB] at hse
    simpa [List.map_append, hsrv] using hse
  · exact inv.lost_faults

/-- A successful `task_done` by a worker whose pop is still unmatched
(normal path or the except path after an executor fault): `dones` grows by
one, the worker returns to the loop head. -/
theorem distInv_taskdone {backlog : List TestCase} {servers : List SquishServer}
    {oracle : Oracle} {s : DistState} {A B : List Worker} {w : Worker}
    (inv : DistInv backlog servers oracle s)
    (hAB : s.workers = A ++ w :: B)
    (hwt : inflightWeight w = 1)
    (hold : Worker.holding w = [])
    (hdne : s.dones ≠ backlog.length)
    (hwnc : w.status ≠ WStatus.crashed) :
    DistInv backlog servers oracle
      { s with
        dones := s.dones + 1
        workers := A ++ { server := w.server, status := WStatus.checking, last := w.last } :: B } := by
  have hh : holdings { s with
        dones := s.dones + 1
        workers := A ++ { server := w.server, status := WStatus.checking, last := w.last } :: B } = holdings s := by
    show ((A ++ { server := w.server, status := WStatus.checking, last := w.last } :: B).map
        Worker.holding).flatten = (s.workers.map Worker.holding).flatten
    rw [hAB, flatten_holding_append, flatten_holding_append, hold]
    rfl
  have hi : inflight { s with
        dones := s.dones + 1
        workers := A ++ { server := w.server, status := WStatus.checking, last := w.last } :: B } + 1 = inflight s := by
    show ((A ++ { server := w.server, status := WStatus.checking, last := w.last } :: B).map
        inflightWeight).sum + 1 = (s.workers.map inflightWeight).sum
    rw [hAB, sum_inflight_append, sum_inflight_append, hwt]
    show (A.map inflightWeight).sum + (0 + (B.map inflightWeight).sum) + 1 =
      (A.map inflightWeight).sum + (1 + (B.map inflightWeight).sum)
    omega
  refine ⟨?_, ?_, ?_, ?_, ?_, ?_, ?_⟩
  · show backlog.Perm (s.queue ++ holdings { s with
        dones := s.dones + 1
        workers := A ++ { server := w.server, status := WStatus.checking, last := w.last } :: B } ++ recordedKeys s ++ s.lost)
    rw [hh]
    exact inv.perm
  · intro hne y hy
    rcases mem_split hy with rfl | hy2
    · exact ⟨by simp, by simp, by simp⟩
    · exact inv.active hne y (hAB ▸ mem_reassemble w hy2)
  · intro hne
    have hb := inv.balance hne
    show s.dones + 1 + inflight { s with
        dones := s.dones + 1
        workers := A ++ { server := w.server, status := WStatus.checking, last := w.last } :: B } + s.queue.length = backlog.length
    omega
  · have := inv.dones_le
    show s.dones + 1 ≤ backlog.length
    omega
  · intro hnc
    have hlow : backlog.length ≤ s.dones + inflight s + s.queue.length := by
      refine inv.lower ?_
      intro y hy
      rw [hAB] at hy
      rcases mem_split hy with rfl | hy2
      · exact hwnc
      · exact hnc y (mem_reassemble _ hy2)
    show backlog.length ≤ s.dones + 1 + inflight { s with
        dones := s.dones + 1
        workers := A ++ { server := w.server, status := WStatus.checking, last := w.last } :: B } + s.queue.length
    omega
  · show (A ++ _ :: B).map Worker.server = servers
    have hse := inv.servers_eq
    rw [hAB] at hse
    simpa [List.map_append] using hse
  · exact inv.lost_faults

/-- The three queue reshuffles used by the preservation proof. -/
theorem perm_shuffle_pop (tc : TestCase) (rest FA FB R L : List TestCase) :
    ((tc :: rest) ++ (FA ++ ([] ++ FB)) ++ R ++ L).Perm
      (rest ++ (FA ++ ([tc] ++ FB)) ++ R ++ L) := by
  refine List.perm_iff_count.mpr (fun a => ?_)
  simp [List.count_append, List.count_cons]
  omega

theorem perm_shuffle_record (tc : TestCase) (Q FA FB R L : List TestCase) :
    (Q ++ (FA ++ ([tc] ++ FB)) ++ R ++ L).Perm
      (Q ++ (FA ++ ([] ++ FB)) ++ (R ++ [tc]) ++ L) := by
  refine List.perm_iff_count.mpr (fun a => ?_)
  simp [List.count_append, List.count_cons]
  omega

theorem perm_shuffle_raise (tc : TestCase) (Q FA FB R L : List TestCase) :
    (Q ++ (FA ++ ([tc] ++ FB)) ++ R ++ L).Perm
      (Q ++ (FA ++ ([] ++ FB)) ++ R ++ (L ++ [tc])) := by
  refine List.perm_iff_count.mpr (fun a => ?_)
  simp [List.count_append, List.count_cons]
  omega

/-- A successful `task_done` in the except block after an `Empty` (the pop
raised, so no pop of this worker is outstanding): `dones` still grows. -/
theorem distInv_steal {backlog : List TestCase} {servers : List SquishServer}
    {oracle : Oracle} {s : DistState} {A B : List Worker} {w : Worker}
    (inv : DistInv backlog servers oracle s)
    (hAB : s.workers = A ++ w :: B)
    (hqe : s.queue = [])
    (hwt : inflightWeight w = 0)
    (hold : Worker.holding w = [])
    (hdne : s.dones ≠ backlog.length)
    (hwnc : w.status ≠ WStatus.crashed) :
    DistInv backlog servers oracle
      { s with
          dones := s.dones + 1
          workers := A ++ { server := w.server, status := WStatus.checking, last := w.last } :: B } := by
  have hh : holdings { s with
      dones := s.dones + 1
      workers := A ++ { server := w.server, status := WStatus.checking, last := w.last } :: B } =
      holdings s := by
    show ((A ++ { server := w.server, status := WStatus.checking, last := w.last } :: B).map
        Worker.holding).flatten = (s.workers.map Worker.holding).flatten
    rw [hAB, flatten_holding_append, flatten_holding_append, hold]
    rfl
  have hi : inflight { s with
      dones := s.dones + 1
      workers := A ++ { server := w.server, status := WStatus.checking, last := w.last } :: B } =
      inflight s := by
    show ((A ++ { server := w.server, status := WStatus.checking, last := w.last } :: B).map
        inflightWeight).sum = (s.workers.map inflightWeight).sum
    rw [hAB, sum_inflight_append, sum_inflight_append, hwt]
    rfl
  refine ⟨?_, ?_, ?_, ?_, ?_, ?_, ?_⟩
  · show backlog.Perm (s.queue ++ holdings { s with
      dones := s.dones + 1
      workers := A ++ { server := w.server, status := WStatus.checking, last := w.last } :: B } ++
        recordedKeys s ++ s.lost)
    rw [hh]
    exact inv.perm
  · intro hne
    exact absurd hqe hne
  · intro hne
    exact absurd hqe hne
  · have := inv.dones_le
    show s.dones + 1 ≤ backlog.length
    omega
  · intro hnc
    have hlow : backlog.length ≤ s.dones + inflight s + s.queue.length := by
      refine inv.lower ?_
      intro y hy
      rw [hAB] at hy
      rcases mem_split hy with rfl | hy2
      · exact hwnc
      · exact hnc y (mem_reassemble _ hy2)
    show backlog.length ≤ s.dones + 1 + inflight { s with
      dones := s.dones + 1
      workers := A ++ { server := w.server, status := WStatus.checking, last := w.last } :: B } +
        s.queue.length
    omega
  · show (A ++ _ :: B).map Worker.server = servers
    have hse := inv.servers_eq
    rw [hAB] at hse
    simpa [List.map_append] using hse
  · exact inv.lost_faults

/-- Popping the queue head moves it from the queue into the popping worker. -/
theorem distInv_pop {backlog : List TestCase} {servers : List SquishServer}
    {oracle : Oracle} {s : DistState} {A B : List Worker}
    {wsrv : SquishServer} {wlast : Option TestCase} {tc : TestCase} {rest : List TestCase}
    (inv : DistInv backlog servers oracle s)
    (hAB : s.workers = A ++ { server := wsrv, status := WStatus.popping, last := wlast } :: B)
    (hql : s.queue = tc :: rest) :
    DistInv backlog servers oracle
      { s with
          queue := rest
          workers := A ++ { server := wsrv, status := WStatus.running tc, last := some tc } :: B } := by
  have hie : inflight { s with
      queue := rest
      workers := A ++ { server := wsrv, status := WStatus.running tc, last := some tc } :: B } =
      inflight s + 1 := by
    show ((A ++ { server := wsrv, status := WStatus.running tc, last := some tc } :: B).map
        inflightWeight).sum = (s.workers.map inflightWeight).sum + 1
    rw [hAB, sum_inflight_append, sum_inflight_append]
    show (A.map inflightWeight).sum + (1 + (B.map inflightWeight).sum) =
      (A.map inflightWeight).sum + (0 + (B.map inflightWeight).sum) + 1
    omega
  have hlc : s.queue.length = rest.length + 1 := by
    rw [hql]
    simp
  refine ⟨?_, ?_, ?_, ?_, ?_, ?_, ?_⟩
  · show backlog.Perm (rest ++ ((A ++ { server := wsrv, status := WStatus.running tc, last := some tc } :: B).map Worker.holding).flatten ++ recordedKeys s ++ s.lost)
    have hp := inv.perm
    rw [hql] at hp
    unfold holdings at hp
    rw [hAB] at hp
    rw [flatten_holding_append] at hp
    rw [flatten_holding_append]
    exact hp.trans (perm_shuffle_pop tc rest _ _ _ _)
  · intro hne y hy
    rcases mem_split hy with rfl | hy2
    · exact ⟨by simp, by simp, by simp⟩
    · exact inv.active (by rw [hql]; exact List.cons_ne_nil tc rest) y
        (hAB ▸ mem_reassemble _ hy2)
  · intro hne
    have hb := inv.balance (by rw [hql]; exact List.cons_ne_nil tc rest)
    show s.dones + inflight { s with
      queue := rest
      workers := A ++ { server := wsrv, status := WStatus.running tc, last := some tc } :: B } +
        rest.length = backlog.length
    omega
  · exact inv.dones_le
  · intro hnc
    have hlow : backlog.length ≤ s.dones + inflight s + s.queue.length := by
      refine inv.lower ?_
      intro y hy
      rw [hAB] at hy
      rcases mem_split hy with rfl | hy2
      · exact (by simp)
      · exact hnc y (mem_reassemble _ hy2)
    show backlog.length ≤ s.dones + inflight { s with
      queue := rest
      workers := A ++ { server := wsrv, status := WStatus.running tc, last := some tc } :: B } +
        rest.length
    omega
  · show (A ++ _ :: B).map Worker.server = servers
    have hse := inv.servers_eq
    rw [hAB] at hse
    simpa [List.map_append] using hse
  · exact inv.lost_faults

/-- Recording a result moves the held test case into the results mapping;
the counts dict and the duration store change arbitrarily. -/
theorem distInv_record {backlog : List TestCase} {servers : List SquishServer}
    {oracle : Oracle} {s : DistState} {A B : List Worker}
    {wsrv : SquishServer} {wlast : Option TestCase} {tc : TestCase}
    {entry : Bool × String × ℚ} {counts2 : List (String × Nat)} {hist2 : HistStore}
    (inv : DistInv backlog servers oracle s)
    (hAB : s.workers = A ++ { server := wsrv, status := WStatus.running tc, last := wlast } :: B) :
    DistInv backlog servers oracle
      { s with
          results := s.results ++ [(tc, entry)]
          counts := counts2
          history := hist2
          workers := A ++ { server := wsrv, status := WStatus.tasking tc, last := wlast } :: B } := by
  have hie : inflight { s with
      results := s.results ++ [(tc, entry)]
      counts := counts2
      history := hist2
      workers := A ++ { server := wsrv, status := WStatus.tasking tc, last := wlast } :: B } =
      inflight s := by
    show ((A ++ { server := wsrv, status := WStatus.tasking tc, last := wlast } :: B).map
        inflightWeight).sum = (s.workers.map inflightWeight).sum
    rw [hAB, sum_inflight_append, sum_inflight_append]
    rfl
  refine ⟨?_, ?_, ?_, ?_, ?_, ?_, ?_⟩
  · show backlog.Perm (s.queue ++ ((A ++ { server := wsrv, status := WStatus.tasking tc, last := wlast } :: B).map Worker.holding).flatten ++
        ((s.results ++ [(tc, entry)]).map (fun r => r.1)) ++ s.lost)
    have hrk : (s.results ++ [(tc, entry)]).map
        (fun r : TestCase × Bool × String × ℚ => r.1) = recordedKeys s ++ [tc] := by
      simp [recordedKeys]
    rw [hrk]
    have hp := inv.perm
    unfold holdings at hp
    rw [hAB] at hp
    rw [flatten_holding_append] at hp
    rw [flatten_holding_append]
    exact hp.trans (perm_shuffle_record tc _ _ _ _ _)
  · intro hne y hy
    rcases mem_split hy with rfl | hy2
    · exact ⟨by simp, by simp, by simp⟩
    · exact inv.active hne y (hAB ▸ mem_reassemble _ hy2)
  · intro hne
    have hb := inv.balance hne
    show s.dones + inflight { s with
      results := s.results ++ [(tc, entry)]
      counts := counts2
      history := hist2
      workers := A ++ { server := wsrv, status := WStatus.tasking tc, last := wlast } :: B } +
        s.queue.length = backlog.length
    omega
  · exact inv.dones_le
  · intro hnc
    have hlow : backlog.length ≤ s.dones + inflight s + s.queue.length := by
      refine inv.lower ?_
      intro y hy
      rw [hAB] at hy
      rcases mem_split hy with rfl | hy2
      · exact (by simp)
      · exact hnc y (mem_reassemble _ hy2)
    show backlog.length ≤ s.dones + inflight { s with
      results := s.results ++ [(tc, entry)]
      counts := counts2
      history := hist2
      workers := A ++ { server := wsrv, status := WStatus.tasking tc, last := wlast } :: B } +
        s.queue.length
    omega
  · show (A ++ _ :: B).map Worker.server = servers
    have hse := inv.servers_eq
    rw [hAB] at hse
    simpa [List.map_append] using hse
  · exact inv.lost_faults

/-- An executor fault moves the held test case into the ghost `lost` list;
the worker enters the except block. -/
theorem distInv_raise {backlog : List TestCase} {servers : List SquishServer}
    {oracle : Oracle} {s : DistState} {A B : List Worker}
    {wsrv : SquishServer} {wlast : Option TestCase} {tc : TestCase} {hist2 : HistStore}
    (inv : DistInv backlog servers oracle s)
    (hAB : s.workers = A ++ { server := wsrv, status := WStatus.running tc, last := wlast } :: B)
    (hbe : (oracle tc wsrv).1 = ProcBehavior.faults) :
    DistInv backlog servers oracle
      { s with
          history := hist2
          workers := A ++ { server := wsrv, status := WStatus.handlingRaise tc, last := wlast } :: B
          lost := s.lost ++ [tc] } := by
  have hie : inflight { s with
      history := hist2
      workers := A ++ { server := wsrv, status := WStatus.handlingRaise tc, last := wlast } :: B
      lost := s.lost ++ [tc] } = inflight s := by
    show ((A ++ { server := wsrv, status := WStatus.handlingRaise tc, last := wlast } :: B).map
        inflightWeight).sum = (s.workers.map inflightWeight).sum
    rw [hAB, sum_inflight_append, sum_inflight_append]
    rfl
  refine ⟨?_, ?_, ?_, ?_, ?_, ?_, ?_⟩
  · show backlog.Perm (s.queue ++ ((A ++ { server := wsrv, status := WStatus.handlingRaise tc, last := wlast } :: B).map Worker.holding).flatten ++ recordedKeys s ++ (s.lost ++ [tc]))
    have hp := inv.perm
    unfold holdings at hp
    rw [hAB] at hp
    rw [flatten_holding_append] at hp
    rw [flatten_holding_append]
    exact hp.trans (perm_shuffle_raise tc _ _ _ _ _)
  · intro hne y hy
    rcases mem_split hy with rfl | hy2
    · exact ⟨by simp, by simp, by simp⟩
    · exact inv.active hne y (hAB ▸ mem_reassemble _ hy2)
  · intro hne
    have hb := inv.balance hne
    show s.dones + inflight { s with
      history := hist2
      workers := A ++ { server := wsrv, status := WStatus.handlingRaise tc, last := wlast } :: B
      lost := s.lost ++ [tc] } + s.queue.length = backlog.length
    omega
  · exact inv.dones_le
  · intro hnc
    have hlow : backlog.length ≤ s.dones + inflight s + s.queue.length := by
      refine inv.lower ?_
      intro y hy
      rw [hAB] at hy
      rcases mem_split hy with rfl | hy2
      · exact (by simp)
      · exact hnc y (mem_reassemble _ hy2)
    show backlog.length ≤ s.dones + inflight { s with
      history := hist2
      workers := A ++ { server := wsrv, status := WStatus.handlingRaise tc, last := wlast } :: B
      lost := s.lost ++ [tc] } + s.queue.length
    omega
  · show (A ++ _ :: B).map Worker.server = servers
    have hse := inv.servers_eq
    rw [hAB] at hse
    simpa [List.map_append] using hse
  · intro x hx
    rcases List.mem_append.mp hx with hx | hx
    · exact inv.lost_faults x hx
    · have hxtc : x = tc := List.mem_singleton.mp hx
      subst hxtc
      refine ⟨wsrv, ?_, hbe⟩
      have hse := inv.servers_eq
      rw [← hse, hAB]
      exact List.mem_map.mpr ⟨_, mem_self_middle A B _, rfl⟩

/-- One worker step preserves the invariant. -/
theorem distInv_step {backlog : List TestCase} {servers : List SquishServer}
    {oracle : Oracle} {s t : DistState} {i : Nat}
    (inv : DistInv backlog servers oracle s)
    (hstep : step oracle backlog.length s i = some t) :
    DistInv backlog servers oracle t := by
  rcases hw : s.workers[i]? with _ | w
  · unfold step at hstep
    rw [hw] at hstep
    exact absurd hstep (by simp)
  obtain ⟨A, B, hAB, hlen, hset⟩ := getElem?_decomp s.workers i w hw
  unfold step at hstep
  rw [hw] at hstep
  obtain ⟨wsrv, wst, wlast⟩ := w
  cases wst with
  | checking =>
      try simp only at hstep
      rw [hset] at hstep
      by_cases hq : s.queue.isEmpty
      · rw [if_pos hq] at hstep
        injection hstep with ht
        subst ht
        exact distInv_swap inv hAB rfl rfl rfl
          (fun hne => absurd (List.isEmpty_iff.mp hq) hne) (by simp)
      · rw [if_neg hq] at hstep
        injection hstep with ht
        subst ht
        exact distInv_swap inv hAB rfl rfl rfl
          (fun _ => ⟨by simp, by simp, by simp⟩) (by simp)
  | popping =>
      try simp only at hstep
      cases hql : s.queue with
      | nil =>
          rw [hql] at hstep
          try simp only at hstep
          rw [hset] at hstep
          injection hstep with ht
          subst ht
          have h2 : DistInv backlog servers oracle
              { s with workers := A ++ { server := wsrv, status := WStatus.handlingEmpty, last := wlast } :: B } :=
            distInv_swap inv hAB rfl rfl rfl (fun hne => absurd hql hne) (by simp)
          rw [hql] at h2
          exact h2
      | cons tc rest =>
          rw [hql] at hstep
          try simp only at hstep
          rw [hset] at hstep
          injection hstep with ht
          subst ht
          exact distInv_pop inv hAB hql
  | running tc =>
      try simp only at hstep
      cases hbe : (oracle tc wsrv).1 with
      | exits c =>
          rw [hbe, run_exits_returned] at hstep
          try simp only at hstep
          rw [hset] at hstep
          injection hstep with ht
          subst ht
          exact distInv_record inv hAB
      | faults =>
          rw [hbe, run_faults_returned] at hstep
          try simp only at hstep
          rw [hset] at hstep
          injection hstep with ht
          subst ht
          exact distInv_raise inv hAB hbe
  | tasking tc =>
      try simp only at hstep
      by_cases hd : s.dones = backlog.length
      · rw [if_pos hd, hset] at hstep
        injection hstep with ht
        subst ht
        have hqe : s.queue = [] := by
          by_contra hne
          have hb := inv.balance hne
          have hi1 : inflight s = (A.map inflightWeight).sum +
              (1 + (B.map inflightWeight).sum) := by
            show (s.workers.map inflightWeight).sum = _
            rw [hAB, sum_inflight_append]
            rfl
          have hq1 : 0 < s.queue.length := List.length_pos.mpr hne
          omega
        exact distInv_crash inv hAB hqe rfl rfl rfl
      · rw [if_neg hd, hset] at hstep
        injection hstep with ht
        subst ht
        exact distInv_taskdone inv hAB rfl rfl hd (by simp)
  | handlingRaise tc =>
      try simp only at hstep
      by_cases hd : s.dones = backlog.length
      · rw [if_pos hd, hset] at hstep
        injection hstep with ht
        subst ht
        have hqe : s.queue = [] := by
          by_contra hne
          have hb := inv.balance hne
          have hi1 : inflight s = (A.map inflightWeight).sum +
              (1 + (B.map inflightWeight).sum) := by
            show (s.workers.map inflightWeight).sum = _
            rw [hAB, sum_inflight_append]
            rfl
          have hq1 : 0 < s.queue.length := List.length_pos.mpr hne
          omega
        exact distInv_crash inv hAB hqe rfl rfl rfl
      · rw [if_neg hd, hset] at hstep
        injection hstep with ht
        subst ht
        exact distInv_taskdone inv hAB rfl rfl hd (by simp)
  | handlingEmpty =>
      try simp only at hstep
      have hqe : s.queue = [] := by
        by_contra hne
        have := (inv.active hne _ (hAB ▸ mem_self_middle A B _)).2.2
        exact this rfl
      cases wlast with
      | none =>
          try simp only at hstep
          rw [hset] at hstep
          injection hstep with ht
          subst ht
          exact distInv_crash inv hAB hqe rfl rfl rfl
      | some tc0 =>
          try simp only at hstep
          by_cases hd : s.dones = backlog.length
          · rw [if_pos hd, hset] at hstep
            injection hstep with ht
            subst ht
            exact distInv_crash inv hAB hqe rfl rfl rfl
          · rw [if_neg hd, hset] at hstep
            injection hstep with ht
            subst ht
            exact distInv_steal inv hAB hqe rfl rfl hd (by simp)
  | done =>
      try simp only at hstep
      exact absurd hstep (by simp)
  | crashed =>
      try simp only at hstep
      exact absurd hstep (by simp)

/-- The invariant holds in every reachable state. -/
theorem distInv_reach {backlog : List TestCase} {servers : List SquishServer}
    {oracle : Oracle} {s t : DistState}
    (inv : DistInv backlog servers oracle s)
    (hr : Reach oracle backlog.length s t) :
    DistInv backlog servers oracle t := by
  induction hr with
  | refl => exact inv
  | tail i hr hstep ih => exact distInv_step ih hstep

/-- Reachability is transitive. -/
theorem reach_trans {oracle : Oracle} {n : Nat} {a b c : DistState}
    (h1 : Reach oracle n a b) (h2 : Reach oracle n b c) : Reach oracle n a c := by
  induction h2 with
  | refl => exact h1
  | tail i h2 hs ih => exact Reach.tail i ih hs

/-- Any concrete schedule yields a reachable state. -/
theorem reach_runSteps (oracle : Oracle) (n : Nat) (is : List Nat) (s : DistState) :
    Reach oracle n s (runSteps oracle n is s) := by
  induction is generalizing s with
  | nil => exact Reach.refl s
  | cons i rest ih =>
      unfold runSteps
      cases hs : step oracle n s i with
      | none => exact ih s
      | some t => exact reach_trans (Reach.tail i (Reach.refl s) hs) (ih t)

/-- With at least one worker, a finished run has drained the queue. -/
theorem terminal_queue_nil {backlog : List TestCase} {servers : List SquishServer}
    {oracle : Oracle} {s : DistState}
    (inv : DistInv backlog servers oracle s) (hserv : servers ≠ [])
    (hterm : terminal s) : s.queue = [] := by
  by_contra hne
  have hw : s.workers ≠ [] := by
    intro h
    apply hserv
    rw [← inv.servers_eq, h]
    rfl
  obtain ⟨w, hwmem⟩ := List.exists_mem_of_ne_nil s.workers hw
  rcases hterm w hwmem with hd | hc
  · exact (inv.active hne w hwmem).1 hd
  · exact (inv.active hne w hwmem).2.1 hc

/-- A finished run has no worker holding a popped, unrecorded test. -/
theorem terminal_holdings_nil {s : DistState} (hterm : terminal s) :
    holdings s = [] := by
  unfold holdings
  apply flatten_map_const_nil
  intro w hw
  rcases hterm w hw with hd | hd <;> simp [Worker.holding, hd]

/-- A finished run has no outstanding pops. -/
theorem terminal_inflight_zero {s : DistState} (hterm : terminal s) :
    inflight s = 0 := by
  unfold inflight
  apply sum_map_const_zero
  intro w hw
  rcases hterm w hw with hd | hd <;> simp [inflightWeight, hd]

/-! ### C1 -/

/-- C1 (amended): when no test execution raises (the behaviour of
`run_squish_test`, which returns on every subprocess exit), every
interleaving of `distribute_tests` that terminates leaves the `results`
mapping with exactly one entry per backlog test case — each test popped and
executed exactly once on exactly one server, no duplicates, no omissions —
and the call returns that mapping exactly in the interleavings in which no
worker raised out of its loop; a racing interleaving instead propagates an
exception (see the counterexample) without ever duplicating or dropping an
execution. -/
theorem distribute_tests_exactly_once
    (backlog : List TestCase) (servers : List SquishServer) (h0 : HistStore)
    (oracle : Oracle) (s : DistState)
    (hserv : servers ≠ [])
    (htotal : ∀ tc srv, (oracle tc srv).1 ≠ ProcBehavior.faults)
    (hreach : Reach oracle backlog.length (initState backlog servers h0) s)
    (hterm : terminal s) :
    (recordedKeys s).Perm backlog
    ∧ ((∀ w ∈ s.workers, w.status ≠ WStatus.crashed) →
        distOutcome s = some s.results) := by
  have inv := distInv_reach (distInv_init backlog servers h0 oracle) hreach
  have hq := terminal_queue_nil inv hserv hterm
  have hh := terminal_holdings_nil hterm
  have hlost : s.lost = [] := by
    rcases hl : s.lost with _ | ⟨x, xs⟩
    · rfl
    · exfalso
      rcases inv.lost_faults x (by rw [hl]; exact List.mem_cons_self x xs) with ⟨srv, _, hf⟩
      exact htotal x srv hf
  have hp := inv.perm
  rw [hq, hh, hlost] at hp
  simp only [List.nil_append, List.append_nil] at hp
  refine ⟨hp.symm, ?_⟩
  intro hnc
  have hall : ∀ w ∈ s.workers, w.status = WStatus.done := by
    intro w hw
    rcases hterm w hw with hd | hc
    · exact hd
    · exact absurd hc (hnc w hw)
  unfold distOutcome
  rw [if_pos hall]

/-- A second server used by the racing counterexample. -/
def hostH2 : String := "h2"

def srv2 : SquishServer := { host := hostH2, port := 4323 }

def oneServer : List SquishServer := [srv1]

def twoServers : List SquishServer := [srv1, srv2]

/-- Oracle: every invocation exits 0 after one time unit. -/
def orcPass : Oracle := fun _ _ => (ProcBehavior.exits 0, 0, 1)

/-- The racing schedule: worker 0 sees a non-empty queue, worker 1 drains
it, worker 0 then pops `Empty` and dies in the handler (its local
`test_case` is unbound, so the log line raises `NameError`). -/
def c1Race : DistState :=
  runSteps orcPass 1 [0, 1, 1, 0, 0, 1, 1, 1] (initState [tcA] twoServers [])

/-- C1 counterexample: an interleaving of two workers on a one-test backlog
in which the run terminates with a crashed worker, so `distribute_tests`
raises instead of returning the result mapping — the claim's "returns a
result mapping ... for every interleaving" is false on the code. -/
theorem distribute_tests_counterexample :
    Reach orcPass 1 (initState [tcA] twoServers []) c1Race
    ∧ terminal c1Race
    ∧ distOutcome c1Race = none := by
  refine ⟨reach_runSteps orcPass 1 _ _, by decide, by decide⟩

/-- Witness: a clean one-worker interleaving; the theorem yields the full
mapping and the normal return. -/
def c1Clean : DistState :=
  runSteps orcPass 1 [0, 0, 0, 0, 0] (initState [tcA] oneServer [])

theorem distribute_tests_exactly_once_witness :
    (recordedKeys c1Clean).Perm [tcA]
    ∧ distOutcome c1Clean = some c1Clean.results := by
  have h := distribute_tests_exactly_once [tcA] oneServer [] orcPass c1Clean
    (by simp [oneServer])
    (fun tc srv => by show ProcBehavior.exits 0 ≠ ProcBehavior.faults; decide)
    (reach_runSteps orcPass 1 [0, 0, 0, 0, 0] (initState [tcA] oneServer []))
    (by decide)
  exact ⟨h.1, h.2 (by decide)⟩

/-! ### C4 -/

/-- C4 (amended): if `run_squish_test` raises on one backlog item, the
worker catches it, marks the item done (never requeued: at a crash-free
finish all `put` calls are matched by `task_done`), and the run completes;
but the final result mapping contains exactly the tests whose execution did
not raise — the faulting test is absent from the mapping, not present as a
failed entry. -/
theorem worker_fault_drops_item
    (backlog : List TestCase) (servers : List SquishServer) (h0 : HistStore)
    (oracle : Oracle) (s : DistState)
    (hserv : servers ≠ []) (hnodup : backlog.Nodup)
    (hreach : Reach oracle backlog.length (initState backlog servers h0) s)
    (hterm : terminal s)
    (hnocrash : ∀ w ∈ s.workers, w.status ≠ WStatus.crashed) :
    distOutcome s = some s.results
    ∧ (recordedKeys s ++ s.lost).Perm backlog
    ∧ s.dones = backlog.length
    ∧ (∀ tc ∈ s.lost, ∃ srv ∈ servers, (oracle tc srv).1 = ProcBehavior.faults)
    ∧ (∀ tc ∈ backlog, (∀ srv, (oracle tc srv).1 ≠ ProcBehavior.faults) →
        tc ∈ recordedKeys s)
    ∧ ∀ tc ∈ s.lost, tc ∉ recordedKeys s := by
  have inv := distInv_reach (distInv_init backlog servers h0 oracle) hreach
  have hq := terminal_queue_nil inv hserv hterm
  have hh := terminal_holdings_nil hterm
  have hi0 := terminal_inflight_zero hterm
  have hp := inv.perm
  rw [hq, hh] at hp
  simp only [List.nil_append, List.append_nil] at hp
  have hout : distOutcome s = some s.results := by
    have hall : ∀ w ∈ s.workers, w.status = WStatus.done := by
      intro w hw
      rcases hterm w hw with hd | hc
      · exact hd
      · exact absurd hc (hnocrash w hw)
    unfold distOutcome
    rw [if_pos hall]
  refine ⟨hout, hp.symm, ?_, inv.lost_faults, ?_, ?_⟩
  · have hle := inv.dones_le
    have hlow := inv.lower hnocrash
    rw [hq] at hlow
    simp only [List.length_nil] at hlow
    omega
  · intro tc htc hnf
    have hmem : tc ∈ recordedKeys s ++ s.lost := hp.mem_iff.mp htc
    rcases List.mem_append.mp hmem with h | h
    · exact h
    · rcases inv.lost_faults tc h with ⟨srv, _, hf⟩
      exact absurd hf (hnf srv)
  · intro tc htc hrec
    have hnd : (recordedKeys s ++ s.lost).Nodup := hp.nodup_iff.mp hnodup
    rcases List.nodup_append.mp hnd with ⟨_, _, hdisj⟩
    exact hdisj hrec htc

/-- Oracle: the invocation of test `a` raises out of `run_squish_test`;
every other test exits 0. -/
def orcFault : Oracle := fun tc _ =>
  (if tc.name = nmA then ProcBehavior.faults else ProcBehavior.exits 0, 0, 1)

/-- A full schedule of the single worker over backlog [a, b] where `a`
faults: pop a, raise, mark done, pop b, record, mark done, exit. -/
def c4Final : DistState :=
  runSteps orcFault 2 [0, 0, 0, 0, 0, 0, 0, 0, 0] (initState [tcA, tcB] oneServer [])

/-- C4 counterexample: one worker, one test whose execution raises: the run
terminates normally and returns, but the result mapping is empty — the
faulting test is not present (let alone marked failed), contradicting the
claim that every backlog test has an entry. -/
def c4Race : DistState :=
  runSteps orcFault 1 [0, 0, 0, 0, 0, 0] (initState [tcA] oneServer [])

theorem worker_fault_counterexample :
    Reach orcFault 1 (initState [tcA] oneServer []) c4Race
    ∧ terminal c4Race
    ∧ distOutcome c4Race = some []
    ∧ tcA ∉ recordedKeys c4Race := by
  refine ⟨reach_runSteps orcFault 1 _ _, by decide, by decide, by decide⟩

/-- Witness for the amended C4 on the concrete two-test schedule. -/
theorem worker_fault_drops_item_witness :
    distOutcome c4Final = some c4Final.results
    ∧ (recordedKeys c4Final ++ c4Final.lost).Perm [tcA, tcB]
    ∧ c4Final.dones = 2
    ∧ tcB ∈ recordedKeys c4Final
    ∧ tcA ∉ recordedKeys c4Final := by
  have h := worker_fault_drops_item [tcA, tcB] oneServer [] orcFault c4Final
    (by simp [oneServer]) (by decide)
    (reach_runSteps orcFault 2 [0, 0, 0, 0, 0, 0, 0, 0, 0] (initState [tcA, tcB] oneServer []))
    (by decide) (by decide)
  refine ⟨h.1, h.2.1, h.2.2.1, ?_, ?_⟩
  · refine h.2.2.2.2.1 tcB (by decide) ?_
    intro srv
    show ProcBehavior.exits 0 ≠ ProcBehavior.faults
    decide
  · exact h.2.2.2.2.2 tcA (by decide)
